import Mathlib

/-!
Formal model of the aind-behavior-gym dynamic foraging environments:
the task state machine of
`src/aind_behavior_gym/dynamic_foraging/task/base.py`
(`DynamicForagingTaskBase`), the random walk schedule of
`src/aind_behavior_gym/dynamic_foraging_tasks/random_walk_task.py`
(`RandomWalkTask`), and the history window observation adapter of
`src/aind_behavior_gym/gym_env/dynamic_bandit_env.py`
(`DynamicBanditEnvHistoryAsState`).

Probabilities are rationals.  The numpy generator `np.random.default_rng(seed)`
is modelled as a seed indexed stream of rational draws together with a position
counter; `uniform` and `normal` each consume exactly one stream element and are
otherwise treated as black box transforms of that element, which is how the
project treats sampling internals.
-/

namespace AindGym

/-- Pseudo random source: a stream of raw rational draws and the position of
the next draw.  `np.random.default_rng(seed)` yields the stream attached to
`seed` with the position at `0`. -/
structure Rng where
  stream : Nat → ℚ
  counter : Nat

/-- Consume one raw draw from the stream. -/
def Rng.next (r : Rng) : ℚ × Rng :=
  (r.stream r.counter, { r with counter := r.counter + 1 })

/-- Model of `rng.uniform(lo, hi)`: one raw draw `u`, rescaled affinely onto
`[lo, hi)`; for a raw draw in `[0, 1)` the result lies in `[lo, hi)`. -/
def Rng.uniform (r : Rng) (lo hi : ℚ) : ℚ × Rng :=
  let u := r.next
  (lo + u.1 * (hi - lo), u.2)

/-- Model of `rng.normal(mu, sigma)`: one raw draw `z`, shifted and scaled.
The shape of the transform is irrelevant to every claim because the random
walk clamps the result to the configured interval. -/
def Rng.normal (r : Rng) (mu sigma : ℚ) : ℚ × Rng :=
  let z := r.next
  (mu + sigma * z.1, z.2)

/-- Constructor arguments of `DynamicForagingTaskBase.__init__`. -/
structure TaskConfig where
  num_arms : Nat
  allow_ignore : Bool
  num_trials : Nat

/-- Size of the gymnasium `Discrete` action space:
`num_arms + int(allow_ignore)`. -/
def TaskConfig.numActions (cfg : TaskConfig) : Nat :=
  cfg.num_arms + (if cfg.allow_ignore then 1 else 0)

/-- Mutable fields of a `DynamicForagingTaskBase` instance after `reset`:
exactly the attributes the python `reset` assigns (`rng`, `trial`,
`trial_p_reward`, `actions`, `rewards`). -/
structure TaskState where
  rng : Rng
  trial : Int
  trial_p_reward : List (List ℚ)
  actions : List Int
  rewards : List Nat

/-- Shape of a concrete schedule: given the new trial index, the probability
history so far and the random source, produce the next probability row and
the advanced random source.  This is the data an override of
`generate_next_trial` supplies. -/
def Sched : Type :=
  Int → List (List ℚ) → Rng → List ℚ × Rng

/-- Model of an overridden `generate_next_trial`, following the mandatory
pattern documented in the base class: increment `self.trial`, then append one
probability row produced by the concrete schedule (which sees the incremented
trial index and the history before the append). -/
def generate_next_trial (sched : Sched) (s : TaskState) : TaskState :=
  let t := s.trial + 1
  let pr := sched t s.trial_p_reward s.rng
  { s with
    trial := t
    trial_p_reward := s.trial_p_reward ++ [pr.1]
    rng := pr.2 }

/-- Model of `DynamicForagingTaskBase.generate_reward`.  Mirrors the python
short circuit: when the action is the designated ignore action the uniform
draw is never made and the source is untouched; otherwise one `uniform(0, 1)`
draw is compared with strict `<` against the current trial's probability for
the chosen arm (`trial_p_reward[-1][action]`). -/
def generate_reward (cfg : TaskConfig) (s : TaskState) (action : Int) :
    Nat × Rng :=
  let ignored := cfg.allow_ignore && (action == (cfg.numActions : Int) - 1)
  if ignored then
    (0, s.rng)
  else
    let u := s.rng.uniform 0 1
    if u.1 < (s.trial_p_reward.getLastD []).getD action.toNat 0 then
      (1, u.2)
    else
      (0, u.2)

/-- Failure modes of `step`: the failed `assert action_space.contains(action)`
and the attribute error of a `step` before any `reset`. -/
inductive StepError where
  | invalidAction
  | notInitialized
deriving DecidableEq

/-- Result of a successful `step`: the new state together with the returned
reward and terminated flag. -/
structure StepResult where
  state : TaskState
  reward : Nat
  terminated : Bool

/-- Model of `DynamicForagingTaskBase.step`.  Validation of the action against
the `Discrete` space happens before any append; then the action is appended,
the reward is generated and appended, termination is decided by
`trial == num_trials - 1` before any increment, and only a non terminated step
runs `generate_next_trial`. -/
def step (sched : Sched) (cfg : TaskConfig) (s : TaskState) (action : Int) :
    Except StepError StepResult :=
  if 0 ≤ action ∧ action < (cfg.numActions : Int) then
    let s1 := { s with actions := s.actions ++ [action] }
    let rr := generate_reward cfg s1 action
    let s2 := { s1 with rewards := s1.rewards ++ [rr.1], rng := rr.2 }
    let terminated := s2.trial == (cfg.num_trials : Int) - 1
    let s3 := if terminated then s2 else generate_next_trial sched s2
    .ok ⟨s3, rr.1, terminated⟩
  else
    .error .invalidAction

/-- Payload of a successful `step`: the appends, the termination test on the
pre-increment trial index, and the conditional schedule advance, written out
as a function so the branches can be reasoned about separately. -/
def stepApplied (sched : Sched) (cfg : TaskConfig) (s : TaskState) (a : Int) :
    StepResult :=
  let s1 : TaskState := { s with actions := s.actions ++ [a] }
  let rr := generate_reward cfg s1 a
  let s2 : TaskState := { s1 with rewards := s1.rewards ++ [rr.1], rng := rr.2 }
  let terminated := s2.trial == (cfg.num_trials : Int) - 1
  ⟨if terminated then s2 else generate_next_trial sched s2, rr.1, terminated⟩

/-- Model of `DynamicForagingTaskBase.reset(seed)`: every mutable attribute is
reassigned (`rng` reseeded from the seed, `trial := -1`, all three history
lists emptied), then `generate_next_trial` produces the trial 0 row.  The
state of any earlier episode is passed in only to record that it is
discarded. -/
def reset (sched : Sched) (seedStream : Nat → Nat → ℚ)
    (earlier : Option TaskState) (seed : Nat) : TaskState :=
  let _ := earlier
  generate_next_trial sched
    { rng := ⟨seedStream seed, 0⟩, trial := -1,
      trial_p_reward := [], actions := [], rewards := [] }

/-- One `step` as a state transformer: the python object keeps its state
unchanged when the assertion fires before any append. -/
def stepOrKeep (sched : Sched) (cfg : TaskConfig) (s : TaskState)
    (action : Int) : TaskState :=
  match step sched cfg s action with
  | .error _ => s
  | .ok r => r.state

/-- A `step` on an environment that may not have been reset yet: before any
`reset` the history attributes do not exist and the call fails. -/
def stepEnv (sched : Sched) (cfg : TaskConfig) :
    Option TaskState → Int → Except StepError StepResult
  | none, _ => .error .notInitialized
  | some s, a => step sched cfg s a

/-- Protocol respecting episode loop: feed actions one by one, stop on an
error, stop as soon as a step returns `terminated = True` (the gymnasium
contract the agent loop in the repository follows).  Returns the final state
and the number of completed steps. -/
def runC (sched : Sched) (cfg : TaskConfig) :
    TaskState → List Int → TaskState × Nat
  | s, [] => (s, 0)
  | s, a :: rest =>
    match step sched cfg s a with
    | .error _ => (s, 0)
    | .ok r =>
      if r.terminated then
        (r.state, 1)
      else
        ((runC sched cfg r.state rest).1, (runC sched cfg r.state rest).2 + 1)

/-- Model of `get_choice_history`. -/
def get_choice_history (s : TaskState) : List Int :=
  s.actions

/-- Model of `get_reward_history`. -/
def get_reward_history (s : TaskState) : List Nat :=
  s.rewards

/-- Model of `get_p_reward`: the probability history transposed to an
arm major matrix. -/
def get_p_reward (s : TaskState) : List (List ℚ) :=
  s.trial_p_reward.transpose

/-- Constructor arguments of `RandomWalkTask.__init__` (after the backward
compatibility scalar-to-list normalisation). -/
structure RWConfig where
  p_min : List ℚ
  p_max : List ℚ
  sigma : List ℚ
  mean : List ℚ

/-- Mutable fields of a `RandomWalkTask` instance after its `reset`. -/
structure RWState where
  rng : Rng
  trial : Int
  trial_p_reward : List (List ℚ)
  hold_this_block : Bool

namespace RandomWalkTask

/-- Model of `RandomWalkTask._generate_next_p(side)`, evaluated with the
already incremented trial index and the history before the append: trial 0
draws uniformly from `[p_min[side], p_max[side])`; a held block repeats the
previous value; otherwise one normal step from the previous value is clamped
(absorbed) to `[p_min[side], p_max[side]]`. -/
def generateNextP (cfg : RWConfig) (trial : Int) (hist : List (List ℚ))
    (hold : Bool) (side : Nat) (rng : Rng) : ℚ × Rng :=
  if trial == 0 then
    rng.uniform (cfg.p_min.getD side 0) (cfg.p_max.getD side 0)
  else if hold then
    ((hist.getLastD []).getD side 0, rng)
  else
    let p :=
      rng.normal ((hist.getLastD []).getD side 0 + cfg.mean.getD side 0)
        (cfg.sigma.getD side 0)
    (min (cfg.p_max.getD side 0) (max (cfg.p_min.getD side 0) p.1), p.2)

/-- Model of `RandomWalkTask.next_trial`: increment the trial index, then
append the row `[p_L, p_R]`, drawing the left side before the right side from
the shared random source. -/
def next_trial (cfg : RWConfig) (s : RWState) : RWState :=
  let t := s.trial + 1
  let pL := generateNextP cfg t s.trial_p_reward s.hold_this_block 0 s.rng
  let pR := generateNextP cfg t s.trial_p_reward s.hold_this_block 1 pL.2
  { s with
    trial := t
    trial_p_reward := s.trial_p_reward ++ [[pL.1, pR.1]]
    rng := pR.2 }

/-- Model of `RandomWalkTask.reset(seed)`: reseed, clear the hold flag and the
history, set `trial := -1`, and produce the trial 0 row via `next_trial`. -/
def reset (cfg : RWConfig) (seedStream : Nat → Nat → ℚ) (seed : Nat) :
    RWState :=
  next_trial cfg
    { rng := ⟨seedStream seed, 0⟩, trial := -1, trial_p_reward := [],
      hold_this_block := false }

/-- Run the schedule for a sequence of further trials; each entry of the list
chooses the externally set `hold_this_block` flag for that trial. -/
def runTrials (cfg : RWConfig) : RWState → List Bool → RWState
  | s, [] => s
  | s, h :: rest =>
    runTrials cfg (next_trial cfg { s with hold_this_block := h }) rest

end RandomWalkTask

/-- Both entries of a two sided probability row lie within their arm's
configured interval. -/
def rowInBounds (cfg : RWConfig) (row : List ℚ) : Prop :=
  ∀ side, side < 2 →
    cfg.p_min.getD side 0 ≤ row.getD side 0 ∧
    row.getD side 0 ≤ cfg.p_max.getD side 0

/-- Reachability invariant of the random walk schedule: the trial index is
non negative, the history is non empty, every recorded row is within bounds,
and every raw draw the source can still produce lies in `[0, 1)`. -/
def RWGood (cfg : RWConfig) (s : RWState) : Prop :=
  0 ≤ s.trial ∧ s.trial_p_reward ≠ [] ∧
  (∀ row ∈ s.trial_p_reward, rowInBounds cfg row) ∧
  (∀ n, 0 ≤ s.rng.stream n ∧ s.rng.stream n < 1)

/-- Flatten a list of (action, reward) pairs the way
`np.array(history).flatten()` does for an (n, 2) array. -/
def flattenPairs : List (Int × Int) → List Int
  | [] => []
  | (a, r) :: rest => a :: r :: flattenPairs rest

/-- Python's `l[-k:]` slice as written in `_get_obs`: for `k = 0` the start
index `-0` is `0`, so `[-0:]` is the whole list; for `k ≥ 1` it is the last
`k` elements (all of them when `k` exceeds the length). -/
def sliceLast {α : Type} (l : List α) (k : Nat) : List α :=
  if k = 0 then l else l.drop (l.length - k)

/-- Model of `DynamicBanditEnvHistoryAsState._get_obs`, re-slicing the full
history on every call: with fewer than `history_length` entries, the reversed
history is followed by neutral `(0, 0)` padding; otherwise the slice
`history[-history_length:]` is taken and reversed (most recent first) — for
`history_length = 0` that slice is the entire history, not the empty list. -/
def histObs (hl : Nat) (history : List (Int × Int)) : List Int :=
  if history.length < hl then
    flattenPairs
      (history.reverse ++ List.replicate (hl - history.length) (0, 0))
  else
    flattenPairs ((sliceLast history hl).reverse)

/-- Restatement of the history window observation in the words of the spec:
the most recent `history_length` pairs in most-recent-first order, padded with
neutral `(0, 0)` pairs up to the fixed length, flattened. -/
def histObsSpec (hl : Nat) (history : List (Int × Int)) : List Int :=
  flattenPairs
    (history.reverse.take hl ++
      List.replicate (hl - history.length) (0, 0))

/-- Model of `DynamicBanditEnvHistoryAsState.reset`: the internal history
buffer is pre-filled with `history_length` neutral pairs. -/
def hasReset (hl : Nat) : List (Int × Int) :=
  List.replicate hl (0, 0)

/-- Model of the history update in `DynamicBanditEnvHistoryAsState.step`:
append the (action, reward) pair of the completed step. -/
def hasStepHist (h : List (Int × Int)) (a r : Int) : List (Int × Int) :=
  h ++ [(a, r)]

/-- History buffer after a reset followed by the given completed steps. -/
def hasHistoryAfter (hl : Nat) (steps : List (Int × Int)) :
    List (Int × Int) :=
  steps.foldl (fun h p => hasStepHist h p.1 p.2) (hasReset hl)

/-- Final `block_starts` asserted by the repository's own
`tests/test_coupled_block_task.py` for `CoupledBlockTask` under seed 42;
`block_starts` only grows by append during the episode, so the intermediate
values are exactly the prefixes of this list. -/
def coupledBlockTestBlockStarts : List Nat :=
  [0, 80, 122, 167, 213, 270, 311, 363, 443, 518, 558, 638, 691, 740, 781,
   821, 873, 922, 974, 1018]

/-- Session length of the test episode: the default `num_trials = 1000`. -/
def coupledBlockTestNumTrials : Nat := 1000

/-- Concrete schedule used for witnesses and counterexamples: both arms at
probability one half on every trial, no draw consumed. -/
def constSched : Sched :=
  fun _ _ r => ([1/2, 1/2], r)

/-- Concrete seed stream used for witnesses and counterexamples: every raw
draw is one half. -/
def halfStream : Nat → Nat → ℚ :=
  fun _ _ => 1/2

/-- Random walk fixture: the constructor defaults with `sigma = 0.15`. -/
def rwCfgW : RWConfig :=
  ⟨[0, 0], [1, 1], [3/20, 3/20], [0, 0]⟩

/-- Fixture schedule state after a reset and one further non held trial. -/
def rwStateW : RWState :=
  RandomWalkTask.runTrials rwCfgW (RandomWalkTask.reset rwCfgW halfStream 0)
    [false]

/-- Boolean check that a step result is a success. -/
def exceptIsOk : Except StepError StepResult → Bool
  | .ok _ => true
  | .error _ => false

/-- Terminated flag of a step result, `false` on an error. -/
def resultTerminated : Except StepError StepResult → Bool
  | .ok r => r.terminated
  | .error _ => false

/-- Two-arm, no-ignore configuration with a single trial, used to exercise a
step after termination. -/
def cexCfg1 : TaskConfig :=
  ⟨2, false, 1⟩

/-- Two-arm, no-ignore configuration with two trials, used to count the
probability rows of a full episode. -/
def cexCfg2 : TaskConfig :=
  ⟨2, false, 2⟩

/-- State right after `reset` of the one-trial fixture. -/
def cexS0 : TaskState :=
  reset constSched halfStream none 0

/-- State after the single (terminal) step of the one-trial fixture. -/
def cexS1 : TaskState :=
  stepOrKeep constSched cexCfg1 cexS0 0

theorem generate_next_trial_trial (sched : Sched) (s : TaskState) :
    (generate_next_trial sched s).trial = s.trial + 1 := rfl

theorem generate_next_trial_actions (sched : Sched) (s : TaskState) :
    (generate_next_trial sched s).actions = s.actions := rfl

theorem generate_next_trial_rewards (sched : Sched) (s : TaskState) :
    (generate_next_trial sched s).rewards = s.rewards := rfl

theorem generate_next_trial_plen (sched : Sched) (s : TaskState) :
    (generate_next_trial sched s).trial_p_reward.length
      = s.trial_p_reward.length + 1 := by
  simp [generate_next_trial]

theorem step_valid (sched : Sched) (cfg : TaskConfig) (s : TaskState) (a : Int)
    (h : 0 ≤ a ∧ a < (cfg.numActions : Int)) :
    step sched cfg s a = .ok (stepApplied sched cfg s a) := by
  unfold step stepApplied
  rw [if_pos h]

theorem stepApplied_terminated (sched : Sched) (cfg : TaskConfig)
    (s : TaskState) (a : Int) :
    (stepApplied sched cfg s a).terminated
      = (s.trial == (cfg.num_trials : Int) - 1) := rfl

theorem stepApplied_state_term (sched : Sched) (cfg : TaskConfig)
    (s : TaskState) (a : Int)
    (h : (s.trial == (cfg.num_trials : Int) - 1) = true) :
    (stepApplied sched cfg s a).state.trial = s.trial ∧
    (stepApplied sched cfg s a).state.trial_p_reward = s.trial_p_reward ∧
    (stepApplied sched cfg s a).state.actions = s.actions ++ [a] ∧
    (stepApplied sched cfg s a).state.rewards.length
      = s.rewards.length + 1 := by
  simp only [stepApplied]
  simp [h]

theorem stepApplied_state_nonterm (sched : Sched) (cfg : TaskConfig)
    (s : TaskState) (a : Int)
    (h : (s.trial == (cfg.num_trials : Int) - 1) = false) :
    (stepApplied sched cfg s a).state.trial = s.trial + 1 ∧
    (stepApplied sched cfg s a).state.trial_p_reward.length
      = s.trial_p_reward.length + 1 ∧
    (stepApplied sched cfg s a).state.actions = s.actions ++ [a] ∧
    (stepApplied sched cfg s a).state.rewards.length
      = s.rewards.length + 1 := by
  simp only [stepApplied]
  simp [h, generate_next_trial]

theorem runC_inv (sched : Sched) (cfg : TaskConfig) :
    ∀ (acts : List Int) (s : TaskState) (t : Nat),
      s.trial = (t : Int) →
      t < cfg.num_trials →
      s.trial_p_reward.length = t + 1 →
      (((runC sched cfg s acts).1.trial_p_reward.length : Int)
          = (runC sched cfg s acts).1.trial + 1) ∧
      (runC sched cfg s acts).1.actions.length
          = s.actions.length + (runC sched cfg s acts).2 ∧
      (runC sched cfg s acts).1.rewards.length
          = s.rewards.length + (runC sched cfg s acts).2 ∧
      (runC sched cfg s acts).2 ≤ cfg.num_trials - t ∧
      ((∀ a ∈ acts, 0 ≤ a ∧ a < (cfg.numActions : Int)) →
          cfg.num_trials - t ≤ acts.length →
          (runC sched cfg s acts).2 = cfg.num_trials - t ∧
          (runC sched cfg s acts).1.trial = (cfg.num_trials : Int) - 1) := by
  intro acts
  induction acts with
  | nil =>
    intro s t ht htn hp
    refine ⟨?_, ?_, ?_, ?_, ?_⟩
    · simp [runC, ht, hp]
    · simp [runC]
    · simp [runC]
    · simp [runC]
    · intro _ hlen
      simp only [List.length_nil] at hlen
      omega
  | cons a rest ih =>
    intro s t ht htn hp
    by_cases hv : 0 ≤ a ∧ a < (cfg.numActions : Int)
    · rw [show runC sched cfg s (a :: rest)
          = (match step sched cfg s a with
             | .error _ => (s, 0)
             | .ok r =>
               if r.terminated then (r.state, 1)
               else ((runC sched cfg r.state rest).1,
                     (runC sched cfg r.state rest).2 + 1)) from rfl,
        step_valid sched cfg s a hv]
      by_cases hT : t + 1 = cfg.num_trials
      · have hterm : (s.trial == (cfg.num_trials : Int) - 1) = true := by
          rw [ht, beq_iff_eq]
          omega
        obtain ⟨f1, f2, f3, f4⟩ := stepApplied_state_term sched cfg s a hterm
        simp only [stepApplied_terminated, hterm, if_true]
        refine ⟨?_, ?_, ?_, ?_, ?_⟩
        · rw [f1, f2, ht, hp]; push_cast; ring
        · simp [f3]
        · simp [f4]
        · omega
        · intro _ _
          constructor
          · omega
          · rw [f1, ht]; omega
      · have hterm : (s.trial == (cfg.num_trials : Int) - 1) = false := by
          rw [ht, beq_eq_false_iff_ne]
          intro hc
          omega
        obtain ⟨f1, f2, f3, f4⟩ := stepApplied_state_nonterm sched cfg s a hterm
        have htn2 : t + 1 < cfg.num_trials := by omega
        have ht2 : (stepApplied sched cfg s a).state.trial = ((t + 1 : Nat) : Int) := by
          rw [f1, ht]; push_cast; ring
        have hp2 : (stepApplied sched cfg s a).state.trial_p_reward.length
            = (t + 1) + 1 := by
          rw [f2, hp]
        obtain ⟨i1, i2, i3, i4, i5⟩ :=
          ih ((stepApplied sched cfg s a).state) (t + 1) ht2 htn2 hp2
        simp only [stepApplied_terminated, hterm, if_false, Bool.false_eq_true]
        refine ⟨?_, ?_, ?_, ?_, ?_⟩
        · exact i1
        · rw [i2, f3]; simp; omega
        · rw [i3, f4]; omega
        · omega
        · intro hall hlen
          have hall2 : ∀ b ∈ rest, 0 ≤ b ∧ b < (cfg.numActions : Int) :=
            fun b hb => hall b (List.mem_cons_of_mem a hb)
          simp only [List.length_cons] at hlen
          obtain ⟨j1, j2⟩ := i5 hall2 (by omega)
          exact ⟨by omega, j2⟩
    · have hstep : step sched cfg s a = .error .invalidAction := by
        unfold step
        rw [if_neg hv]
      rw [show runC sched cfg s (a :: rest)
          = (match step sched cfg s a with
             | .error _ => (s, 0)
             | .ok r =>
               if r.terminated then (r.state, 1)
               else ((runC sched cfg r.state rest).1,
                     (runC sched cfg r.state rest).2 + 1)) from rfl,
        hstep]
      refine ⟨?_, ?_, ?_, ?_, ?_⟩
      · simp [ht, hp]
      · simp
      · simp
      · simp
      · intro hall _
        exact absurd (hall a (List.mem_cons_self a rest)) hv

theorem reset_trial (sched : Sched) (seedStream : Nat → Nat → ℚ)
    (earlier : Option TaskState) (seed : Nat) :
    (reset sched seedStream earlier seed).trial = 0 := by
  simp [reset, generate_next_trial]

theorem reset_plen (sched : Sched) (seedStream : Nat → Nat → ℚ)
    (earlier : Option TaskState) (seed : Nat) :
    (reset sched seedStream earlier seed).trial_p_reward.length = 1 := by
  simp [reset, generate_next_trial]

theorem reset_actions (sched : Sched) (seedStream : Nat → Nat → ℚ)
    (earlier : Option TaskState) (seed : Nat) :
    (reset sched seedStream earlier seed).actions = [] := rfl

theorem reset_rewards (sched : Sched) (seedStream : Nat → Nat → ℚ)
    (earlier : Option TaskState) (seed : Nat) :
    (reset sched seedStream earlier seed).rewards = [] := rfl

/-- C1: for every seed and every fixed action sequence, two runs of a task
environment constructed with identical configuration and reset with the same
seed produce identical `choice_history`, `reward_history` and
`p_reward_matrix`; the prior states of the two instances are irrelevant
because `reset` reassigns every mutable attribute. -/
theorem deterministic_reproducibility (sched : Sched)
    (seedStream : Nat → Nat → ℚ) (cfg : TaskConfig)
    (earlier1 earlier2 : Option TaskState) (seed1 seed2 : Nat)
    (acts1 acts2 : List Int) (hseed : seed1 = seed2) (hacts : acts1 = acts2) :
    get_choice_history
        (runC sched cfg (reset sched seedStream earlier1 seed1) acts1).1
      = get_choice_history
        (runC sched cfg (reset sched seedStream earlier2 seed2) acts2).1 ∧
    get_reward_history
        (runC sched cfg (reset sched seedStream earlier1 seed1) acts1).1
      = get_reward_history
        (runC sched cfg (reset sched seedStream earlier2 seed2) acts2).1 ∧
    get_p_reward
        (runC sched cfg (reset sched seedStream earlier1 seed1) acts1).1
      = get_p_reward
        (runC sched cfg (reset sched seedStream earlier2 seed2) acts2).1 := by
  subst hseed
  subst hacts
  exact ⟨rfl, rfl, rfl⟩

/-- Witness for C1 at a concrete schedule, seed and action list, with the two
instances holding different prior episodes. -/
theorem deterministic_reproducibility_witness :
    get_choice_history
        (runC constSched cexCfg2 (reset constSched halfStream none 0) [0, 1]).1
      = get_choice_history
        (runC constSched cexCfg2
          (reset constSched halfStream (some cexS1) 0) [0, 1]).1 ∧
    get_reward_history
        (runC constSched cexCfg2 (reset constSched halfStream none 0) [0, 1]).1
      = get_reward_history
        (runC constSched cexCfg2
          (reset constSched halfStream (some cexS1) 0) [0, 1]).1 ∧
    get_p_reward
        (runC constSched cexCfg2 (reset constSched halfStream none 0) [0, 1]).1
      = get_p_reward
        (runC constSched cexCfg2
          (reset constSched halfStream (some cexS1) 0) [0, 1]).1 :=
  deterministic_reproducibility constSched halfStream cexCfg2 none (some cexS1)
    0 0 [0, 1] [0, 1] rfl rfl

/-- C2: after a reset, along any protocol respecting episode the probability
history always has length `trial + 1`, the action and reward histories have
equal length which is exactly the number of completed steps, the step count
never exceeds `num_trials`, and with enough valid actions the episode ends at
exactly `num_trials` steps. -/
theorem history_length_invariants (sched : Sched)
    (seedStream : Nat → Nat → ℚ) (cfg : TaskConfig)
    (earlier : Option TaskState) (seed : Nat) (acts : List Int)
    (hN : 1 ≤ cfg.num_trials) :
    (((runC sched cfg (reset sched seedStream earlier seed) acts).1.trial_p_reward.length : Int)
        = (runC sched cfg (reset sched seedStream earlier seed) acts).1.trial + 1) ∧
    (runC sched cfg (reset sched seedStream earlier seed) acts).1.actions.length
        = (runC sched cfg (reset sched seedStream earlier seed) acts).2 ∧
    (runC sched cfg (reset sched seedStream earlier seed) acts).1.rewards.length
        = (runC sched cfg (reset sched seedStream earlier seed) acts).2 ∧
    (runC sched cfg (reset sched seedStream earlier seed) acts).2
        ≤ cfg.num_trials ∧
    ((∀ a ∈ acts, 0 ≤ a ∧ a < (cfg.numActions : Int)) →
        cfg.num_trials ≤ acts.length →
        (runC sched cfg (reset sched seedStream earlier seed) acts).2
          = cfg.num_trials) := by
  obtain ⟨i1, i2, i3, i4, i5⟩ :=
    runC_inv sched cfg acts (reset sched seedStream earlier seed) 0
      (reset_trial sched seedStream earlier seed) (by omega)
      (reset_plen sched seedStream earlier seed)
  refine ⟨i1, ?_, ?_, by omega, ?_⟩
  · simpa [reset_actions sched seedStream earlier seed] using i2
  · simpa [reset_rewards sched seedStream earlier seed] using i3
  · intro hall hlen
    obtain ⟨j1, _⟩ := i5 hall (by omega)
    omega

/-- Witness for C2 on a two trial episode offered three valid actions: the
episode completes exactly two steps and records exactly two actions. -/
theorem history_length_invariants_witness :
    (runC constSched cexCfg2 (reset constSched halfStream none 0) [0, 0, 0]).2
        = 2 ∧
    (runC constSched cexCfg2
        (reset constSched halfStream none 0) [0, 0, 0]).1.actions.length
        = 2 := by
  obtain ⟨h1, h2, h3, h4, h5⟩ :=
    history_length_invariants constSched halfStream cexCfg2 none 0 [0, 0, 0]
      (by decide)
  have hn := h5 (by decide) (by decide)
  have htwo : cexCfg2.num_trials = 2 := rfl
  refine ⟨hn.trans htwo, ?_⟩
  rw [h2, hn, htwo]

/-- C5: a step whose action lies outside `[0, num_arms + int(allow_ignore))`
fails with the invalid action error and leaves the state, in particular every
history container, unchanged. -/
theorem invalid_action_rejected (sched : Sched) (cfg : TaskConfig)
    (s : TaskState) (a : Int)
    (h : ¬(0 ≤ a ∧ a < (cfg.numActions : Int))) :
    step sched cfg s a = .error .invalidAction ∧
    stepOrKeep sched cfg s a = s := by
  have hstep : step sched cfg s a = .error .invalidAction := by
    unfold step
    rw [if_neg h]
  refine ⟨hstep, ?_⟩
  unfold stepOrKeep
  rw [hstep]

/-- Witness for C5: the action `-1` is rejected and the state is returned
unchanged. -/
theorem invalid_action_rejected_witness :
    step constSched cexCfg1 cexS0 (-1) = .error .invalidAction ∧
    stepOrKeep constSched cexCfg1 cexS0 (-1) = cexS0 :=
  invalid_action_rejected constSched cexCfg1 cexS0 (-1) (by decide)

/-- C6 counterexample: in the one trial fixture the first step returns
`terminated = True`, yet a further step on the terminated environment is
processed rather than rejected: it succeeds and appends a second action. -/
theorem step_after_termination_not_rejected :
    resultTerminated (step constSched cexCfg1 cexS0 0) = true ∧
    exceptIsOk (step constSched cexCfg1 cexS1 0) = true ∧
    (stepOrKeep constSched cexCfg1 cexS1 0).actions.length = 2 := by
  refine ⟨by decide, by decide, by decide⟩

/-- C6 amended: a step before any reset fails (the history attributes do not
exist yet), but a step on an already terminated environment is not rejected:
it is processed like another terminal step, appending the action and
returning `terminated = True` again. -/
theorem step_lifecycle_amended (sched : Sched) (cfg : TaskConfig)
    (s : TaskState) (a : Int)
    (hterm : s.trial = (cfg.num_trials : Int) - 1)
    (hv : 0 ≤ a ∧ a < (cfg.numActions : Int)) :
    stepEnv sched cfg none a = .error .notInitialized ∧
    (∃ r, step sched cfg s a = .ok r ∧ r.terminated = true ∧
        r.state.actions = s.actions ++ [a]) := by
  have hb : (s.trial == (cfg.num_trials : Int) - 1) = true := by
    rw [hterm]
    exact beq_self_eq_true _
  refine ⟨rfl, stepApplied sched cfg s a, step_valid sched cfg s a hv, ?_, ?_⟩
  · rw [stepApplied_terminated]
    exact hb
  · exact (stepApplied_state_term sched cfg s a hb).2.2.1

/-- Witness for C6 amended, on the already terminated one trial fixture. -/
theorem step_lifecycle_amended_witness :
    stepEnv constSched cexCfg1 none 0 = .error .notInitialized :=
  (step_lifecycle_amended constSched cexCfg1 cexS1 0 (by decide) (by decide)).1

/-- C7 counterexample: a full two trial episode ends with exactly two rows of
probability history, not the three the claim's discarded extra row would
imply. -/
theorem extra_probability_row_cex :
    (runC constSched cexCfg2
        (reset constSched halfStream none 0) [0, 0]).1.trial_p_reward.length
      = 2 ∧
    cexCfg2.num_trials = 2 ∧
    ((runC constSched cexCfg2
        (reset constSched halfStream none 0) [0, 0]).1.trial_p_reward.length
      == cexCfg2.num_trials + 1) = false := by
  refine ⟨by decide, by decide, by decide⟩

/-- C7 amended: termination is decided by `trial == num_trials - 1` before any
increment, but on the terminal step `generate_next_trial` is skipped, so no
next probability vector is generated or discarded and a full episode ends
with exactly `num_trials` probability rows, one per trial played. -/
theorem termination_check_amended (sched : Sched)
    (seedStream : Nat → Nat → ℚ) (cfg : TaskConfig)
    (earlier : Option TaskState) (seed : Nat) (s : TaskState) (a : Int)
    (acts : List Int)
    (hv : 0 ≤ a ∧ a < (cfg.numActions : Int))
    (hN : 1 ≤ cfg.num_trials)
    (hall : ∀ b ∈ acts, 0 ≤ b ∧ b < (cfg.numActions : Int))
    (hlen : cfg.num_trials ≤ acts.length) :
    (∃ r, step sched cfg s a = .ok r ∧
        r.terminated = (s.trial == (cfg.num_trials : Int) - 1) ∧
        (r.terminated = true → r.state.trial_p_reward = s.trial_p_reward ∧
          r.state.trial = s.trial)) ∧
    (runC sched cfg (reset sched seedStream earlier seed) acts).1.trial_p_reward.length
        = cfg.num_trials := by
  constructor
  · refine ⟨stepApplied sched cfg s a, step_valid sched cfg s a hv,
      stepApplied_terminated sched cfg s a, ?_⟩
    intro hT
    rw [stepApplied_terminated] at hT
    obtain ⟨g1, g2, _, _⟩ := stepApplied_state_term sched cfg s a hT
    exact ⟨g2, g1⟩
  · obtain ⟨i1, _, _, _, i5⟩ :=
      runC_inv sched cfg acts (reset sched seedStream earlier seed) 0
        (reset_trial sched seedStream earlier seed) (by omega)
        (reset_plen sched seedStream earlier seed)
    obtain ⟨_, j2⟩ := i5 hall (by omega)
    have hcast :
        ((runC sched cfg (reset sched seedStream earlier seed) acts).1.trial_p_reward.length : Int)
          = (cfg.num_trials : Int) := by
      rw [i1, j2]
      ring
    exact_mod_cast hcast

/-- Witness for C7 amended on the two trial fixture. -/
theorem termination_check_amended_witness :
    (runC constSched cexCfg2
        (reset constSched halfStream none 0) [0, 0]).1.trial_p_reward.length
      = cexCfg2.num_trials :=
  (termination_check_amended constSched halfStream cexCfg2 none 0 cexS0 0
    [0, 0] (by decide) (by decide) (by decide) (by decide)).2

/-- C4: on a step with a valid action, the designated ignore action (the last
action index, present only with `allow_ignore`) yields reward 0 without
touching the random source; any other action consumes exactly one uniform
draw and yields reward 1 exactly when the draw is strictly below the current
trial's probability for the chosen arm. -/
theorem generate_reward_semantics (cfg : TaskConfig) (s : TaskState)
    (a : Int) :
    (cfg.allow_ignore = true ∧ a = (cfg.numActions : Int) - 1 →
        generate_reward cfg s a = (0, s.rng)) ∧
    (¬(cfg.allow_ignore = true ∧ a = (cfg.numActions : Int) - 1) →
        ((generate_reward cfg s a).1
            = if s.rng.stream s.rng.counter
                < (s.trial_p_reward.getLastD []).getD a.toNat 0 then 1
              else 0) ∧
        (generate_reward cfg s a).2.counter = s.rng.counter + 1 ∧
        (generate_reward cfg s a).2.stream = s.rng.stream) := by
  constructor
  · rintro ⟨h1, h2⟩
    simp [generate_reward, h1, h2]
  · intro h
    have hig : (cfg.allow_ignore
        && (a == (cfg.numActions : Int) - 1)) = false := by
      cases hA : cfg.allow_ignore
      · rfl
      · have hne : ¬(a = (cfg.numActions : Int) - 1) := fun hc => h ⟨hA, hc⟩
        simp [hne]
    simp only [generate_reward, hig, Bool.false_eq_true, if_false]
    simp [Rng.uniform, Rng.next, apply_ite Prod.fst, apply_ite Prod.snd]

/-- Witness for C4: the ignore branch at a concrete ignoring configuration
returns reward 0 with the source untouched; the sampling branch advances the
draw position by one. -/
theorem generate_reward_semantics_witness :
    generate_reward ⟨2, true, 10⟩ cexS0 2 = (0, cexS0.rng) ∧
    (generate_reward cexCfg1 cexS0 0).2.counter = cexS0.rng.counter + 1 :=
  ⟨(generate_reward_semantics ⟨2, true, 10⟩ cexS0 2).1 ⟨rfl, by decide⟩,
   ((generate_reward_semantics cexCfg1 cexS0 0).2 (by decide)).2.1⟩

theorem flattenPairs_length (l : List (Int × Int)) :
    (flattenPairs l).length = 2 * l.length := by
  induction l with
  | nil => rfl
  | cons p rest ih =>
    cases p
    simp only [flattenPairs, List.length_cons]
    omega

theorem histObs_length (hl : Nat) (history : List (Int × Int))
    (h1 : 1 ≤ hl) :
    (histObs hl history).length = 2 * hl := by
  unfold histObs sliceLast
  by_cases h : history.length < hl
  · rw [if_pos h, flattenPairs_length]
    simp only [List.length_append, List.length_reverse, List.length_replicate]
    omega
  · rw [if_neg h]
    have h0 : ¬(hl = 0) := by omega
    rw [if_neg h0, flattenPairs_length]
    simp only [List.length_reverse, List.length_drop]
    omega

/-- C9 counterexample: at `history_length = 0` the python slice `[-0:]` is
the entire history, so after one recorded step the observation is the whole
flattened history `[5, 1]` of length 2 — not the claimed flattening of the
most recent zero pairs (the empty sequence of length `2 * 0`). -/
theorem history_window_hl_zero_cex :
    histObs 0 [(5, 1)] = [5, 1] ∧
    histObsSpec 0 [(5, 1)] = [] ∧
    (histObs 0 [(5, 1)] == histObsSpec 0 [(5, 1)]) = false ∧
    ((histObs 0 [(5, 1)]).length == 2 * 0) = false := by
  refine ⟨by decide, by decide, by decide, by decide⟩

/-- C9 amended: for `history_length ≥ 1` the history window observation
equals the flattening of the most recent `history_length` (action, reward)
pairs in most recent first order, padded with neutral `(0, 0)` pairs when
fewer steps have occurred, has fixed length `2 * history_length`, and is
recomputed from the full history on every call (it is a function of the
whole history buffer alone); at `history_length = 0` the code instead
returns the entire flattened history, because the slice `[-0:]` is the whole
list. -/
theorem history_window_observation (hl : Nat) (history : List (Int × Int))
    (h1 : 1 ≤ hl) :
    histObs hl history = histObsSpec hl history ∧
    (histObs hl history).length = 2 * hl := by
  refine ⟨?_, histObs_length hl history h1⟩
  unfold histObs histObsSpec sliceLast
  by_cases h : history.length < hl
  · rw [if_pos h]
    have htake : history.reverse.take hl = history.reverse := by
      apply List.take_of_length_le
      rw [List.length_reverse]
      omega
    rw [htake]
  · rw [if_neg h]
    have h0 : ¬(hl = 0) := by omega
    rw [if_neg h0]
    have hz : hl - history.length = 0 := by omega
    rw [hz, List.take_reverse]
    simp

/-- Witness for C9 amended at a window of three over a two step history. -/
theorem history_window_observation_witness :
    histObs 3 [(5, 1), (7, 0)] = histObsSpec 3 [(5, 1), (7, 0)] ∧
    (histObs 3 [(5, 1), (7, 0)]).length = 2 * 3 :=
  history_window_observation 3 [(5, 1), (7, 0)] (by decide)

/-- C10 counterexample: with `history_length = 0` the reset buffer is empty
and after one completed step the observation flattens the whole buffer to
length 2, not the claimed fixed `2 * history_length = 0`. -/
theorem history_obs_length_hl_zero_cex :
    (histObs 0 (hasHistoryAfter 0 [(1, 1)])).length = 2 ∧
    ((histObs 0 (hasHistoryAfter 0 [(1, 1)])).length == 2 * 0) = false := by
  refine ⟨by decide, by decide⟩

/-- C10 amended: in the history as state environment with
`history_length ≥ 1`, every observation returned by `reset` or by `step` —
i.e. after the pre-filled reset buffer has received any number of appended
steps, including zero — is a flat vector of length exactly
`2 * history_length`, and the under-length padding branch of the observation
function is unreachable because the buffer never has fewer than
`history_length` entries after a reset; with `history_length = 0` the
observation instead grows with the number of completed steps. -/
theorem history_obs_length_fixed (hl : Nat) (steps : List (Int × Int))
    (h1 : 1 ≤ hl) :
    (histObs hl (hasHistoryAfter hl steps)).length = 2 * hl ∧
    hl ≤ (hasHistoryAfter hl steps).length := by
  have hlen : ∀ (l : List (Int × Int)) (init : List (Int × Int)),
      (l.foldl (fun h p => hasStepHist h p.1 p.2) init).length
        = init.length + l.length := by
    intro l
    induction l with
    | nil => intro init; simp
    | cons p rest ih =>
      intro init
      rw [List.foldl_cons, ih]
      simp only [hasStepHist, List.length_append, List.length_cons,
        List.length_nil]
      omega
  have hfull : (hasHistoryAfter hl steps).length = hl + steps.length := by
    unfold hasHistoryAfter
    rw [hlen steps (hasReset hl)]
    simp [hasReset]
  exact ⟨histObs_length hl (hasHistoryAfter hl steps) h1, by omega⟩

/-- Witness for C10 amended at a window of two after a single step. -/
theorem history_obs_length_fixed_witness :
    (histObs 2 (hasHistoryAfter 2 [(1, 1)])).length = 2 * 2 ∧
    2 ≤ (hasHistoryAfter 2 [(1, 1)]).length :=
  history_obs_length_fixed 2 [(1, 1)] (by decide)

/-- C8 counterexample: the repository's own test pins the final
`block_starts` of the coupled block task, and its last entry 1018 exceeds the
session's `num_trials = 1000`, so not every entry is bounded by
`num_trials`. -/
theorem block_starts_exceed_num_trials :
    1018 ∈ coupledBlockTestBlockStarts ∧
    coupledBlockTestNumTrials < 1018 := by
  exact ⟨by decide, by decide⟩

/-- C8 amended: the recorded `block_starts` begins with 0 and is strictly
increasing, and stays strictly increasing at every point of the episode (its
intermediate values are the prefixes of the final list); every entry except
the final one is below `num_trials`, but the final recorded block start may
exceed `num_trials`. -/
theorem block_starts_amended :
    coupledBlockTestBlockStarts.head? = some 0 ∧
    List.Chain' (fun x y => x < y) coupledBlockTestBlockStarts ∧
    (∀ k, List.Chain' (fun x y => x < y)
        (coupledBlockTestBlockStarts.take k)) ∧
    (∀ b ∈ coupledBlockTestBlockStarts.dropLast,
        b < coupledBlockTestNumTrials) := by
  have hchain :
      List.Chain' (fun x y => x < y) coupledBlockTestBlockStarts := by
    simp only [coupledBlockTestBlockStarts, List.chain'_cons,
      List.chain'_singleton]
    norm_num
  refine ⟨rfl, hchain, fun k => hchain.take k, by decide⟩

/-- Witness for C8 amended: the first recorded block start is trial 0. -/
theorem block_starts_amended_witness :
    coupledBlockTestBlockStarts.head? = some 0 :=
  block_starts_amended.1

theorem getLastD_mem {α : Type} (l : List α) (d : α) (h : l ≠ []) :
    l.getLastD d ∈ l := by
  rw [List.getLastD_eq_getLast?, List.getLast?_eq_getLast_of_ne_nil h]
  exact List.getLast_mem h

theorem getD_mem {α : Type} (l : List α) (n : Nat) (d : α)
    (h : n < l.length) : l.getD n d ∈ l := by
  rw [List.getD_eq_getElem l d h]
  exact List.getElem_mem h

theorem uniform_fst (r : Rng) (lo hi : ℚ) :
    (r.uniform lo hi).1 = lo + r.stream r.counter * (hi - lo) := rfl

theorem uniform_snd_stream (r : Rng) (lo hi : ℚ) :
    (r.uniform lo hi).2.stream = r.stream := rfl

theorem normal_snd_stream (r : Rng) (mu sigma : ℚ) :
    (r.normal mu sigma).2.stream = r.stream := rfl

theorem uniform_mem (r : Rng) (lo hi : ℚ) (hlohi : lo ≤ hi)
    (h0 : 0 ≤ r.stream r.counter) (h1 : r.stream r.counter < 1) :
    lo ≤ (r.uniform lo hi).1 ∧ (r.uniform lo hi).1 ≤ hi := by
  rw [uniform_fst]
  constructor
  · nlinarith
  · nlinarith

namespace RandomWalkTask

theorem generateNextP_stream (cfg : RWConfig) (trial : Int)
    (hist : List (List ℚ)) (hold : Bool) (side : Nat) (rng : Rng) :
    (generateNextP cfg trial hist hold side rng).2.stream = rng.stream := by
  unfold generateNextP
  cases h : (trial == 0)
  · cases hold
    · simp [h, normal_snd_stream]
    · simp [h]
  · simp [h, uniform_snd_stream]

theorem generateNextP_mem (cfg : RWConfig) (trial : Int)
    (hist : List (List ℚ)) (hold : Bool) (side : Nat) (rng : Rng)
    (hlohi : cfg.p_min.getD side 0 ≤ cfg.p_max.getD side 0)
    (hstream : ∀ n, 0 ≤ rng.stream n ∧ rng.stream n < 1)
    (hprev : hold = true → trial ≠ 0 →
        cfg.p_min.getD side 0 ≤ (hist.getLastD []).getD side 0 ∧
        (hist.getLastD []).getD side 0 ≤ cfg.p_max.getD side 0) :
    cfg.p_min.getD side 0 ≤ (generateNextP cfg trial hist hold side rng).1 ∧
    (generateNextP cfg trial hist hold side rng).1
      ≤ cfg.p_max.getD side 0 := by
  unfold generateNextP
  by_cases h0 : trial = 0
  · have hb : (trial == 0) = true := by simp [h0]
    rw [hb]
    simp only [if_true]
    exact uniform_mem rng _ _ hlohi (hstream rng.counter).1
      (hstream rng.counter).2
  · have hb : (trial == 0) = false := by simp [h0]
    rw [hb]
    simp only [Bool.false_eq_true, if_false]
    cases hH : hold
    · simp only [Bool.false_eq_true, if_false]
      exact ⟨le_min hlohi (le_max_left _ _), min_le_left _ _⟩
    · simp only [if_true]
      exact hprev hH h0

theorem next_trial_good (cfg : RWConfig) (s : RWState)
    (h0 : cfg.p_min.getD 0 0 ≤ cfg.p_max.getD 0 0)
    (h1 : cfg.p_min.getD 1 0 ≤ cfg.p_max.getD 1 0)
    (hg : RWGood cfg s) : RWGood cfg (next_trial cfg s) := by
  obtain ⟨htr, hne, hrows, hstream⟩ := hg
  have hprevRow : rowInBounds cfg (s.trial_p_reward.getLastD []) :=
    hrows _ (getLastD_mem _ _ hne)
  have hL := generateNextP_mem cfg (s.trial + 1) s.trial_p_reward
    s.hold_this_block 0 s.rng h0 hstream
    (fun _ _ => hprevRow 0 (by omega))
  have hLs : (generateNextP cfg (s.trial + 1) s.trial_p_reward
      s.hold_this_block 0 s.rng).2.stream = s.rng.stream :=
    generateNextP_stream cfg (s.trial + 1) s.trial_p_reward
      s.hold_this_block 0 s.rng
  have hstream2 : ∀ n,
      0 ≤ (generateNextP cfg (s.trial + 1) s.trial_p_reward
        s.hold_this_block 0 s.rng).2.stream n ∧
      (generateNextP cfg (s.trial + 1) s.trial_p_reward
        s.hold_this_block 0 s.rng).2.stream n < 1 := by
    rw [hLs]
    exact hstream
  have hR := generateNextP_mem cfg (s.trial + 1) s.trial_p_reward
    s.hold_this_block 1
    (generateNextP cfg (s.trial + 1) s.trial_p_reward
      s.hold_this_block 0 s.rng).2 h1 hstream2
    (fun _ _ => hprevRow 1 (by omega))
  have hRs : (generateNextP cfg (s.trial + 1) s.trial_p_reward
      s.hold_this_block 1
      (generateNextP cfg (s.trial + 1) s.trial_p_reward
        s.hold_this_block 0 s.rng).2).2.stream
      = (generateNextP cfg (s.trial + 1) s.trial_p_reward
        s.hold_this_block 0 s.rng).2.stream :=
    generateNextP_stream cfg (s.trial + 1) s.trial_p_reward
      s.hold_this_block 1 _
  refine ⟨by simp only [next_trial]; omega, ?_, ?_, ?_⟩
  · simp [next_trial]
  · intro row hrow
    simp only [next_trial, List.mem_append, List.mem_singleton] at hrow
    rcases hrow with hold | hnew
    · exact hrows row hold
    · subst hnew
      intro side hside
      interval_cases side
      · simpa using hL
      · simpa using hR
  · show ∀ n, 0 ≤ (next_trial cfg s).rng.stream n ∧
        (next_trial cfg s).rng.stream n < 1
    have : (next_trial cfg s).rng.stream = s.rng.stream := by
      simp only [next_trial]
      rw [hRs, hLs]
    rw [this]
    exact hstream

theorem reset_good (cfg : RWConfig) (seedStream : Nat → Nat → ℚ) (seed : Nat)
    (h0 : cfg.p_min.getD 0 0 ≤ cfg.p_max.getD 0 0)
    (h1 : cfg.p_min.getD 1 0 ≤ cfg.p_max.getD 1 0)
    (hstream : ∀ n, 0 ≤ seedStream seed n ∧ seedStream seed n < 1) :
    RWGood cfg (reset cfg seedStream seed) := by
  unfold reset
  set fresh : RWState :=
    { rng := ⟨seedStream seed, 0⟩, trial := -1, trial_p_reward := [],
      hold_this_block := false } with hfr
  have hL := generateNextP_mem cfg (fresh.trial + 1) fresh.trial_p_reward
    fresh.hold_this_block 0 fresh.rng h0 hstream
    (fun hc _ => Bool.noConfusion hc)
  have hLs := generateNextP_stream cfg (fresh.trial + 1)
    fresh.trial_p_reward fresh.hold_this_block 0 fresh.rng
  have hstream2 : ∀ n,
      0 ≤ (generateNextP cfg (fresh.trial + 1) fresh.trial_p_reward
        fresh.hold_this_block 0 fresh.rng).2.stream n ∧
      (generateNextP cfg (fresh.trial + 1) fresh.trial_p_reward
        fresh.hold_this_block 0 fresh.rng).2.stream n < 1 := by
    rw [hLs]
    exact hstream
  have hR := generateNextP_mem cfg (fresh.trial + 1) fresh.trial_p_reward
    fresh.hold_this_block 1
    (generateNextP cfg (fresh.trial + 1) fresh.trial_p_reward
      fresh.hold_this_block 0 fresh.rng).2 h1 hstream2
    (fun hc _ => Bool.noConfusion hc)
  have hRs := generateNextP_stream cfg (fresh.trial + 1)
    fresh.trial_p_reward fresh.hold_this_block 1
    (generateNextP cfg (fresh.trial + 1) fresh.trial_p_reward
      fresh.hold_this_block 0 fresh.rng).2
  refine ⟨by simp [next_trial, hfr], by simp [next_trial], ?_, ?_⟩
  · intro row hrow
    simp only [next_trial, List.mem_append, List.mem_singleton] at hrow
    rcases hrow with hnil | hnew
    · exact absurd hnil (List.not_mem_nil row)
    · subst hnew
      intro side hside
      interval_cases side
      · simpa using hL
      · simpa using hR
  · show ∀ n, 0 ≤ (next_trial cfg fresh).rng.stream n ∧
        (next_trial cfg fresh).rng.stream n < 1
    have heq : (next_trial cfg fresh).rng.stream = fresh.rng.stream := by
      simp only [next_trial]
      rw [hRs, hLs]
    rw [heq]
    exact hstream

theorem runTrials_good (cfg : RWConfig)
    (h0 : cfg.p_min.getD 0 0 ≤ cfg.p_max.getD 0 0)
    (h1 : cfg.p_min.getD 1 0 ≤ cfg.p_max.getD 1 0) :
    ∀ (holdSchedule : List Bool) (s : RWState), RWGood cfg s →
      RWGood cfg (runTrials cfg s holdSchedule) := by
  intro holdSchedule
  induction holdSchedule with
  | nil => intro s hg; exact hg
  | cons h rest ih =>
    intro s hg
    apply ih
    apply next_trial_good cfg _ h0 h1
    obtain ⟨g1, g2, g3, g4⟩ := hg
    exact ⟨g1, g2, g3, g4⟩

end RandomWalkTask

/-- C3: along any run of the random walk schedule (reset, then any number of
further trials under any externally chosen hold flags), every probability
value ever appended lies within its arm's configured
`[p_min[side], p_max[side]]`: trial 0 is drawn uniformly inside the interval
and every later value is either held or produced by a clamped normal step. -/
theorem random_walk_probability_bounds (cfg : RWConfig)
    (seedStream : Nat → Nat → ℚ) (seed : Nat) (holdSchedule : List Bool)
    (hstream : ∀ n, 0 ≤ seedStream seed n ∧ seedStream seed n < 1)
    (h0 : cfg.p_min.getD 0 0 ≤ cfg.p_max.getD 0 0)
    (h1 : cfg.p_min.getD 1 0 ≤ cfg.p_max.getD 1 0) :
    ∀ row ∈ (RandomWalkTask.runTrials cfg
        (RandomWalkTask.reset cfg seedStream seed)
        holdSchedule).trial_p_reward,
      ∀ side, side < 2 →
        cfg.p_min.getD side 0 ≤ row.getD side 0 ∧
        row.getD side 0 ≤ cfg.p_max.getD side 0 := by
  have hg := RandomWalkTask.runTrials_good cfg h0 h1 holdSchedule
    (RandomWalkTask.reset cfg seedStream seed)
    (RandomWalkTask.reset_good cfg seedStream seed h0 h1 hstream)
  exact fun row hrow side hside => hg.2.2.1 row hrow side hside

/-- Witness for C3: the second row of the fixture run stays within the
configured interval on the left arm. -/
theorem random_walk_probability_bounds_witness :
    rwCfgW.p_min.getD 0 0 ≤ (rwStateW.trial_p_reward.getD 1 []).getD 0 0 ∧
    (rwStateW.trial_p_reward.getD 1 []).getD 0 0 ≤ rwCfgW.p_max.getD 0 0 :=
  random_walk_probability_bounds rwCfgW halfStream 0 [false]
    (fun _ => by norm_num [halfStream]) (by norm_num [rwCfgW])
    (by norm_num [rwCfgW]) (rwStateW.trial_p_reward.getD 1 [])
    (getD_mem _ 1 [] (by decide)) 0 (by omega)

end AindGym
